import Mathlib

/-!
Verification development for the swanky two-party computation core:
the ALSZ oblivious-transfer extension (`ocelot/src/ot/alsz.rs`), the
AES-based correlation-robust hashes (`ocelot/src/hash_aes.rs`), and the
semi-honest garbler/evaluator adapters (`twopac/src/garbler.rs`,
`twopac/src/semihonest/evaluator.rs`).

Bits and blocks are modelled at the bit level: a byte buffer of `n` bytes
is a `List Bool` of length `8 * n`, listing bits LSB-first within each
byte, bytes in order (so index `k` is bit `k` of the little-endian
integer the buffer encodes).  A 128-bit `Block` is a `List Bool` of
length 128.  The AES-128 block cipher (`Aes128`, crate module `aes`, not
part of the sources under verification) is abstracted as an arbitrary
function `Blk → Blk`, and the AES counter-mode PRG (`AesRng`, crate
module `rand_aes`) as an arbitrary bit stream `Blk → ℕ → Bool` from a
seed; none of the properties proved here depend on their internals.
-/

set_option maxRecDepth 40000

/-- A 128-bit chunk (`Block = [u8; 16]` in `block.rs`), as its 128 bits
LSB-first. -/
abbrev Blk := List Bool

/-- Function `xor_block` of `block.rs`: bitwise XOR of two blocks.  Also reused for
arbitrary equal-length bit rows, modelling `utils::xor_inplace`. -/
def xor_block (x y : Blk) : Blk := List.zipWith Bool.xor x y

/-- An all-zero row of `n` bits (`vec![0u8; n/8]`). -/
def zero_row (n : ℕ) : List Bool := List.replicate n false

/-- The fixed-key AES hash object of `hash_aes.rs`.  The field `aes` is the
block-cipher permutation `AES_K` fixed at construction (`Aes128::new(key)`);
AES itself lives in the external `aes` module and is kept abstract. -/
structure AesHash where
  aes : Blk → Blk

/-- Method `AesHash::cr_hash`: computes `π(x) ⊕ x` (code: `xor_block(&x, &y)` with
`y = aes.encrypt_u8(&x)`); the tweak `_i` is ignored. -/
def AesHash.cr_hash (h : AesHash) (_i : ℕ) (x : Blk) : Blk :=
  xor_block x (h.aes x)

/-- The 128-bit constant `_mm_set_epi64(_mm_set1_pi8(0xF), _mm_setzero_si64())`
used by `ccr_hash`: low 64 bits zero, each of the 8 high bytes `0x0F`
(LSB-first per byte: bits 0–3 set, bits 4–7 clear). -/
def nibbleMask : List Bool :=
  List.replicate 64 false ++
    (List.replicate 8 [true, true, true, true, false, false, false, false]).flatten

/-- Intrinsic `_mm_shuffle_epi32(x, 78)`: dword permutation (2,3,0,1), i.e. the two
64-bit halves of the block are swapped. -/
def swapHalves (x : Blk) : Blk := x.drop 64 ++ x.take 64

/-- The block actually fed to the hash by `AesHash::ccr_hash`:
`shuffle(x,78) XOR (x AND nibbleMask)`. -/
def sigmaCode (x : Blk) : Blk :=
  xor_block (swapHalves x) (List.zipWith and x nibbleMask)

/-- Sigma as the spec states it: the low 64 bits of `σ(x)` are `low64(x)` and the
high 64 bits are `high64(x) ⊕ low64(x)`. -/
def sigmaSpec (x : Blk) : Blk :=
  x.take 64 ++ xor_block (x.drop 64) (x.take 64)

/-- Method `AesHash::ccr_hash`: builds the masked-swap block from `x`, then
computes `π(x') ⊕ x'` on it exactly as `cr_hash` does. -/
def AesHash.ccr_hash (h : AesHash) (_i : ℕ) (x : Blk) : Blk :=
  let x' := sigmaCode x
  xor_block x' (h.aes x')

/-- PRG row expansion: `AesRng::new(k).random(&mut row)` filling `n` bits,
with the PRG abstracted as the bit stream `prg k`. -/
def prgRow (prg : Blk → ℕ → Bool) (k : Blk) (n : ℕ) : List Bool :=
  (List.range n).map (prg k)

/-- Receiver row `t_j ← PRG(k0_j)` of `alsz.rs` `receive`. -/
def tRow (prg : Blk → ℕ → Bool) (k : Blk × Blk) (n : ℕ) : List Bool :=
  prgRow prg k.1 n

/-- Receiver row `g_j = PRG(k1_j) ⊕ t_j ⊕ r` written to the stream
(`receive`, lines 120–124): `rng1` output, XORed in place with `t` and with
the packed choice bits `r`. -/
def gRow (prg : Blk → ℕ → Bool) (k : Blk × Blk) (r : List Bool) (n : ℕ) :
    List Bool :=
  xor_block (xor_block (prgRow prg k.2 n) (prgRow prg k.1 n)) r

/-- The receiver's 128 `t` rows (matrix `ts`, row-major). -/
def tsRows (prg : Blk → ℕ → Bool) (ks : List (Blk × Blk)) (n : ℕ) :
    List (List Bool) :=
  ks.map (fun k => tRow prg k n)

/-- The 128 `g` rows the receiver writes to the stream, in row order. -/
def gRows (prg : Blk → ℕ → Bool) (ks : List (Blk × Blk)) (r : List Bool)
    (n : ℕ) : List (List Bool) :=
  ks.map (fun k => gRow prg k r n)

/-- Sender row `q_j` (`send`, lines 65–74): read `u` (= `g_j`), zero it when
`s_j` is clear, then `q_j = PRG(k_j) ⊕ u`. -/
def qRow (prg : Blk → ℕ → Bool) (b : Bool) (k : Blk) (g : List Bool)
    (n : ℕ) : List Bool :=
  xor_block (prgRow prg k n) (if b then g else zero_row n)

/-- The sender's matrix `qs`, row-major: one `qRow` per base-OT index,
zipping the choice vector `s`, the received seeds and the incoming rows. -/
def qsRows (prg : Blk → ℕ → Bool) (s : List Bool) (kch : List Blk)
    (gs : List (List Bool)) (n : ℕ) : List (List Bool) :=
  (s.zip (kch.zip gs)).map (fun p => qRow prg p.1 p.2.1 p.2.2 n)

/-- Modelled from the spec: §4.A `utils::transpose` (the `utils` module is
not among the sources): input is `nrows` rows of `ncols` bits row-major,
output is `ncols` rows of `nrows` bits, with output bit `(j, i)` equal to
input bit `(i, j)`.  Rows are kept as lists of bits. -/
def transpose (mat : List (List Bool)) (nrows ncols : ℕ) :
    List (List Bool) :=
  (List.range ncols).map (fun j =>
    (List.range nrows).map (fun i => (mat.getD i []).getD j false))

/-- The `(y0_j, y1_j)` pairs the sender writes (`send`, lines 76–84):
`y0 = H(j, Q_j) ⊕ m0_j`, then `Q_j ⊕= s` in place, `y1 = H(j, Q_j ⊕ s) ⊕ m1_j`. -/
def sendYs (h : AesHash) (qt : List (List Bool)) (s : List Bool)
    (inputs : List (Blk × Blk)) : List (Blk × Blk) :=
  (List.range inputs.length).map (fun j =>
    let q := qt.getD j []
    let inp := inputs.getD j ([], [])
    (xor_block (h.cr_hash j q) inp.1,
     xor_block (h.cr_hash j (xor_block q s)) inp.2))

/-- The receiver's output blocks (`receive`, lines 129–137): for each `j`
read `(y0_j, y1_j)`, select by the choice bit, XOR with `H(j, T_j)`. -/
def recvOut (h : AesHash) (tt : List (List Bool)) (bs : List Bool)
    (ys : List (Blk × Blk)) : List Blk :=
  (List.range bs.length).map (fun j =>
    let t := tt.getD j []
    let y := ys.getD j ([], [])
    xor_block (if bs.getD j false then y.2 else y.1) (h.cr_hash j t))

/-- Stream operations performed by a party, in order (coarse alphabet). -/
inductive OtEv where
  | baseOt
  | readRow
  | writeRow
  | writeBlock
  | readBlock
  deriving DecidableEq

/-- The only input-validation error `AlszOT::send` raises
(`ErrorKind::InvalidInput`, "Number of inputs must be divisible by 8"). -/
inductive OtErr where
  | invalidInput
  deriving DecidableEq

/-- Result of `AlszOT::send`: either it delegated to the base OT
(`m ≤ 128`), or it ran the extension and wrote the listed pairs. -/
inductive SendRes where
  | base
  | ext (ys : List (Blk × Blk))
  deriving DecidableEq

/-- Result of `AlszOT::receive`: either it delegated to the base OT, or it
ran the extension and computed the listed output blocks. -/
inductive RecvRes where
  | base
  | ext (out : List Blk)
  deriving DecidableEq

/-- Method `AlszOT::send` (`alsz.rs` lines 38–86).  Arguments beyond the sender's
own inputs are the data arriving on the stream: `kch` is what the base-OT
receive call with choices `s` returns, `gs` are the rows read during
expansion.  Returns the ordered stream events of this party together with
the result: the divisibility check precedes everything, the small-`m`
fallback delegates to the base OT, and the extension path expands, reads,
transposes and writes the hashed pairs. -/
def alszSend (prg : Blk → ℕ → Bool) (h : AesHash) (s : List Bool)
    (kch : List Blk) (gs : List (List Bool)) (inputs : List (Blk × Blk)) :
    List OtEv × Except OtErr SendRes :=
  let m := inputs.length
  if m % 8 ≠ 0 then ([], .error .invalidInput)
  else if m ≤ 128 then ([.baseOt], .ok .base)
  else
    let qs := qsRows prg s kch gs m
    let qt := transpose qs 128 m
    let ys := sendYs h qt s inputs
    ([.baseOt] ++ List.replicate qs.length .readRow
       ++ List.replicate (2 * m) .writeBlock, .ok (.ext ys))

/-- Method `AlszOT::receive` (`alsz.rs` lines 88–139).  `ys` is the stream of
pairs read back in the extension path.  The small-`m` fallback delegates to
the base OT (there is no divisibility check on this side). -/
def alszReceive (prg : Blk → ℕ → Bool) (h : AesHash) (bs : List Bool)
    (ks : List (Blk × Blk)) (ys : List (Blk × Blk)) :
    List OtEv × RecvRes :=
  let m := bs.length
  if m ≤ 128 then ([.baseOt], .base)
  else
    let gs := gRows prg ks bs m
    let tt := transpose (tsRows prg ks m) 128 m
    ([.baseOt] ++ List.replicate gs.length .writeRow
       ++ List.replicate (2 * m) .readBlock, .ext (recvOut h tt bs ys))

/-- Modelled from the spec: §4.F, the ideal 1-out-of-2 base OT (the
Chou-Orlandi instantiation is out of scope): for each choice bit the
receiver learns exactly the selected message. -/
def idealBaseOT (ps : List (Blk × Blk)) (cs : List Bool) : List Blk :=
  List.zipWith (fun p c => if c then p.2 else p.1) ps cs

/-- Joint execution of `send` and `receive` over one connected stream pair,
parameterized by the base OT functionality `baseOT`.  The wiring follows
the protocol: the receiver samples seed pairs `ks` and plays base-OT
sender, the sender holds choice vector `s` and plays base-OT receiver
(so it learns `baseOT ks s`); the receiver's `g` rows feed the sender's
expansion and the sender's `y` pairs feed the receiver's output.  A party
erroring or the two taking different paths leaves the protocol without an
output. -/
def alszProtocol (prg : Blk → ℕ → Bool) (h : AesHash)
    (baseOT : List (Blk × Blk) → List Bool → List Blk)
    (s : List Bool) (ks : List (Blk × Blk))
    (inputs : List (Blk × Blk)) (bs : List Bool) :
    Except OtErr (List Blk) :=
  match (alszSend prg h s (baseOT ks s) (gRows prg ks bs bs.length) inputs).2 with
  | .error e => .error e
  | .ok .base =>
    match (alszReceive prg h bs ks []).2 with
    | .base => .ok (baseOT inputs bs)
    | .ext _ => .error .invalidInput
  | .ok (.ext ys) =>
    match (alszReceive prg h bs ks ys).2 with
    | .base => .error .invalidInput
    | .ext out => .ok out

/-- Modelled from the spec: §4.H/§6, the `fancy_garbling::Wire` interface
(wire labels live in the external `fancy-garbling` crate): an opaque label
type with `zero(q)`, `plus`, `cmul` and `from_block(q)`. -/
structure WireOps (W : Type) where
  zero : ℕ → W
  plus : W → W → W
  cmul : W → ℕ → W
  fromBlock : Blk → ℕ → W

/-- Modelled from the spec: §7 error kinds of the `twopac` `errors` module
(not among the sources) — `Io`, `Protocol`, `Input` — extended with
`panicked`, which models a Rust panic (`unwrap` on an exhausted iterator,
`Vec::remove(0)` on an empty vector, indexing out of bounds): a panic
aborts instead of returning through the error channel. -/
inductive TpErr where
  | ioErr
  | protocolErr
  | inputErr
  | panicked
  deriving DecidableEq

/-- Modelled from the spec: §4.H, the `fancy_garbling::Message` values the
garbler callback post-processes; messages other than the four named kinds
are collapsed into `other`. -/
inductive GbMessage (W : Type) where
  | unencodedGarblerInput (zero delta : W)
  | unencodedEvaluatorInput (zero delta : W)
  | evaluatorInput (w : W)
  | garblerInput (w : W)
  | other (payload : List ℕ)

/-- The sync-index byte prefixed to every forwarded message
(`garbler.rs` lines 57–60): the index itself, or the `0xFF` sentinel. -/
def syncByte (idx : Option ℕ) : List ℕ :=
  match idx with
  | some i => [i]
  | none => [255]

/-- The garbler callback of `Garbler::new` (`garbler.rs` lines 42–62).
`queue` is the captured iterator over the garbler's own input values;
the result is the bytes written to the stream (sync-index byte, then the
serialized message, with `Message::to_bytes` abstracted as `toBytes`)
together with the remaining queue.  `unwrap` on an exhausted queue and the
two rejected message kinds panic. -/
def garblerCallback {W : Type} (ops : WireOps W)
    (toBytes : GbMessage W → List ℕ) (queue : List ℕ)
    (idx : Option ℕ) (msg : GbMessage W) :
    Except TpErr (List ℕ × List ℕ) :=
  match msg with
  | .unencodedGarblerInput zero delta =>
    match queue with
    | [] => .error .panicked
    | x :: rest =>
      .ok (syncByte idx ++ toBytes (.garblerInput (ops.plus zero (ops.cmul delta x))), rest)
  | .unencodedEvaluatorInput _ _ => .error .panicked
  | .evaluatorInput _ => .error .panicked
  | m => .ok (syncByte idx ++ toBytes m, queue)

/-- The LSB-first bit decomposition `(0..len).map(|i| input & (1 << i) != 0)`
of one popped input value (`evaluator.rs` line 108), with the bit count
`len q` (the code computes `(q as f32).log(2.0).ceil() as usize`; the
float expression is kept abstract as the parameter `len`). -/
def bitsOf (len : ℕ → ℕ) (q v : ℕ) : List Bool :=
  (List.range (len q)).map (fun i => v.testBit i)

/-- The popping loop of `Evaluator::evaluator_inputs` (`evaluator.rs` lines
106–111): for each modulus, `self.inputs.remove(0)` pops the front of the
input queue — panicking when it is empty — and the value's bits are pushed
onto `bs`.  Returns the concatenated bits and the remaining queue. -/
def popBits (len : ℕ → ℕ) : List ℕ → List ℕ → Option (List Bool × List ℕ)
  | [], st => some ([], st)
  | _ :: _, [] => none
  | q :: qs, v :: st =>
    (popBits len qs st).map (fun p => (bitsOf len q v ++ p.1, p.2))

/-- Function `combine` (`evaluator.rs` lines 68–76): fold the returned blocks into
`Σ_i from_block(w_i, q) · 2^i` starting from `zero(q)`. -/
def combine {W : Type} (ops : WireOps W) (wires : List Blk) (q : ℕ) : W :=
  wires.enum.foldl
    (fun acc iw => ops.plus acc (ops.cmul (ops.fromBlock iw.2 q) (2 ^ iw.1)))
    (ops.zero q)

/-- The chunking loop of `evaluator_inputs` (`evaluator.rs` lines 113–123):
walk the moduli, take the next `len q` returned blocks, `combine` them. -/
def chunkCombine {W : Type} (ops : WireOps W) (len : ℕ → ℕ) :
    List ℕ → List Blk → List W
  | [], _ => []
  | q :: qs, wires =>
    combine ops (wires.take (len q)) q :: chunkCombine ops len qs (wires.drop (len q))

/-- Method `Evaluator::evaluator_inputs` (`evaluator.rs` lines 100–124), with the
OT-receive call abstracted as `otR` (choice bits to returned blocks) and
the evaluator's input queue passed and returned explicitly.  Pops one value
per modulus, concatenates all bits into a single `run_ot` call, then chunks
and combines. -/
def evaluator_inputs {W : Type} (ops : WireOps W) (len : ℕ → ℕ)
    (otR : List Bool → List Blk) (qs : List ℕ) (st : List ℕ) :
    Except TpErr (List W × List ℕ) :=
  match popBits len qs st with
  | none => .error .panicked
  | some (bs, st') => .ok (chunkCombine ops len qs (otR bs), st')

/-- Method `Evaluator::evaluator_input` (`evaluator.rs` lines 94–98): call
`evaluator_inputs(&[q])` and take element 0 of the returned wires
(indexing an empty vector would panic). -/
def evaluator_input {W : Type} (ops : WireOps W) (len : ℕ → ℕ)
    (otR : List Bool → List Blk) (q : ℕ) (st : List ℕ) :
    Except TpErr (W × List ℕ) :=
  match evaluator_inputs ops len otR [q] st with
  | .error e => .error e
  | .ok (ws, st') =>
    match ws with
    | [] => .error .panicked
    | w :: _ => .ok (w, st')

theorem length_xor_block (x y : Blk) :
    (xor_block x y).length = min x.length y.length := by
  simp [xor_block]

theorem getD_map_range {α : Type} (f : ℕ → α) (d : α) {n j : ℕ} (h : j < n) :
    ((List.range n).map f).getD j d = f j := by
  rw [List.getD_eq_getElem _ _ (by simpa using h)]
  simp

theorem getD_xor_block {x y : List Bool} {j : ℕ} (hx : j < x.length)
    (hy : j < y.length) :
    (xor_block x y).getD j false =
      Bool.xor (x.getD j false) (y.getD j false) := by
  have hj : j < (xor_block x y).length := by
    rw [length_xor_block]; omega
  rw [List.getD_eq_getElem _ _ hj, List.getD_eq_getElem _ _ hx,
    List.getD_eq_getElem _ _ hy]
  simp [xor_block]

theorem getD_zero_row {n j : ℕ} : (zero_row n).getD j false = false := by
  rcases Nat.lt_or_ge j n with h | h
  · rw [zero_row, List.getD_eq_getElem _ _ (by simpa using h)]
    simp
  · exact List.getD_eq_default _ _ (by simpa [zero_row] using h)

theorem xor_block_ext {x y : List Bool} (hlen : x.length = y.length)
    (hpt : ∀ j, j < x.length → x.getD j false = y.getD j false) : x = y := by
  apply List.ext_getElem hlen
  intro j h1 h2
  have := hpt j h1
  rwa [List.getD_eq_getElem _ _ h1, List.getD_eq_getElem _ _ h2] at this

theorem xor_block_comm (x y : Blk) : xor_block x y = xor_block y x := by
  apply xor_block_ext
  · simp [length_xor_block, Nat.min_comm]
  · intro j hj
    rw [length_xor_block] at hj
    rw [getD_xor_block (by omega) (by omega), getD_xor_block (by omega) (by omega)]
    exact Bool.xor_comm _ _

theorem xor_block_zero_right (x : List Bool) :
    xor_block x (zero_row x.length) = x := by
  apply xor_block_ext
  · simp [length_xor_block, zero_row]
  · intro j hj
    rw [length_xor_block, zero_row, List.length_replicate, Nat.min_self] at hj
    rw [getD_xor_block hj (by simpa [zero_row] using hj), getD_zero_row]
    simp

theorem xor_block_cancel_right (x y : List Bool) (h : y.length = x.length) :
    xor_block (xor_block x y) y = x := by
  apply xor_block_ext
  · simp [length_xor_block, h]
  · intro j hj
    simp only [length_xor_block, h, Nat.min_self] at hj
    rw [getD_xor_block (by simp [length_xor_block, h]; omega) (by omega),
      getD_xor_block (by omega) (by omega)]
    cases x.getD j false <;> cases y.getD j false <;> decide

theorem xor_block_xor_cancel (a b : List Bool) (h : b.length = a.length) :
    xor_block (xor_block a b) a = b := by
  apply xor_block_ext
  · simp [length_xor_block, h]
  · intro j hj
    simp only [length_xor_block, h, Nat.min_self] at hj
    rw [getD_xor_block (by simp [length_xor_block, h]; omega) (by omega),
      getD_xor_block (by omega) (by omega)]
    cases a.getD j false <;> cases b.getD j false <;> decide

theorem getD_map_of_lt {α β : Type} (l : List α) (f : α → β) (d : β)
    (d' : α) {i : ℕ} (h : i < l.length) :
    (l.map f).getD i d = f (l.getD i d') := by
  rw [List.getD_eq_getElem _ _ (by simpa using h), List.getElem_map,
    List.getD_eq_getElem _ _ h]

theorem idealBaseOT_getD {ks : List (Blk × Blk)} {s : List Bool} {i : ℕ}
    (h1 : i < ks.length) (h2 : i < s.length) :
    (idealBaseOT ks s).getD i [] =
      if s.getD i false then (ks.getD i ([], [])).2
      else (ks.getD i ([], [])).1 := by
  have hz : i < (idealBaseOT ks s).length := by
    simp only [idealBaseOT, List.length_zipWith]; omega
  rw [List.getD_eq_getElem _ _ hz, List.getD_eq_getElem _ _ h1,
    List.getD_eq_getElem _ _ h2]
  simp [idealBaseOT]

theorem qsRows_getD {prg : Blk → ℕ → Bool} {s : List Bool} {kch : List Blk}
    {gs : List (List Bool)} {n i : ℕ} (h1 : i < s.length)
    (h2 : i < kch.length) (h3 : i < gs.length) :
    (qsRows prg s kch gs n).getD i [] =
      qRow prg (s.getD i false) (kch.getD i []) (gs.getD i []) n := by
  have hz : i < (s.zip (kch.zip gs)).length := by
    simp only [List.length_zip]; omega
  rw [qsRows, List.getD_eq_getElem _ _ (by simpa using hz), List.getElem_map]
  simp only [List.getElem_zip]
  rw [List.getD_eq_getElem _ _ h1, List.getD_eq_getElem _ _ h2,
    List.getD_eq_getElem _ _ h3]

theorem prgRow_getD {prg : Blk → ℕ → Bool} {k : Blk} {n j : ℕ} (hj : j < n) :
    (prgRow prg k n).getD j false = prg k j := by
  simp only [prgRow]
  rw [getD_map_range _ _ hj]

theorem gRow_getD {prg : Blk → ℕ → Bool} {k : Blk × Blk} {r : List Bool}
    {n j : ℕ} (hj : j < n) (hr : j < r.length) :
    (gRow prg k r n).getD j false =
      Bool.xor (Bool.xor (prg k.2 j) (prg k.1 j)) (r.getD j false) := by
  have hlen : j < (xor_block (prgRow prg k.2 n) (prgRow prg k.1 n)).length := by
    simp [length_xor_block, prgRow]; omega
  rw [gRow, getD_xor_block hlen hr,
    getD_xor_block (by simp [prgRow]; omega) (by simp [prgRow]; omega),
    prgRow_getD hj, prgRow_getD hj]

theorem qRow_getD_false {prg : Blk → ℕ → Bool} {k : Blk} {g : List Bool}
    {n j : ℕ} (hj : j < n) :
    (qRow prg false k g n).getD j false = prg k j := by
  rw [qRow, if_neg (by simp)]
  rw [getD_xor_block (by simp [prgRow]; omega) (by simp [zero_row]; omega),
    getD_zero_row, prgRow_getD hj]
  simp

theorem qRow_getD_true {prg : Blk → ℕ → Bool} {k : Blk} {g : List Bool}
    {n j : ℕ} (hj : j < n) (hg : j < g.length) :
    (qRow prg true k g n).getD j false =
      Bool.xor (prg k j) (g.getD j false) := by
  rw [qRow, if_pos rfl]
  rw [getD_xor_block (by simp [prgRow]; omega) hg, prgRow_getD hj]

theorem tsRows_getD {prg : Blk → ℕ → Bool} {ks : List (Blk × Blk)} {n i : ℕ}
    (hi : i < ks.length) :
    (tsRows prg ks n).getD i [] = prgRow prg (ks.getD i ([], [])).1 n := by
  rw [tsRows, getD_map_of_lt _ _ _ ([], []) hi, tRow]

theorem qs_entry (prg : Blk → ℕ → Bool) (s : List Bool)
    (ks : List (Blk × Blk)) (bs : List Bool) (hs : s.length = 128)
    (hks : ks.length = 128) {i j : ℕ} (hi : i < 128) (hj : j < bs.length) :
    ((qsRows prg s (idealBaseOT ks s) (gRows prg ks bs bs.length)
        bs.length).getD i []).getD j false =
      Bool.xor (((tsRows prg ks bs.length).getD i []).getD j false)
        ((s.getD i false) && bs.getD j false) := by
  have h2 : i < (idealBaseOT ks s).length := by
    simp only [idealBaseOT, List.length_zipWith]; omega
  have h3 : i < (gRows prg ks bs bs.length).length := by
    simp only [gRows, List.length_map]; omega
  rw [qsRows_getD (by omega) h2 h3, idealBaseOT_getD (by omega) (by omega),
    tsRows_getD (by omega), prgRow_getD hj]
  rw [gRows, getD_map_of_lt _ _ _ ([], []) (by omega)]
  cases hb : s.getD i false
  · rw [if_neg (by simp), qRow_getD_false hj]
    simp
  · rw [if_pos rfl,
      qRow_getD_true hj (by simp [gRow, length_xor_block, prgRow]; omega),
      gRow_getD hj hj]
    cases prg (ks.getD i ([], [])).2 j <;>
      cases prg (ks.getD i ([], [])).1 j <;>
      cases bs.getD j false <;> decide

theorem column_invariant_aux (prg : Blk → ℕ → Bool) (s : List Bool)
    (ks : List (Blk × Blk)) (bs : List Bool) (hs : s.length = 128)
    (hks : ks.length = 128) {j : ℕ} (hj : j < bs.length) :
    (transpose (qsRows prg s (idealBaseOT ks s) (gRows prg ks bs bs.length)
        bs.length) 128 bs.length).getD j [] =
      xor_block
        ((transpose (tsRows prg ks bs.length) 128 bs.length).getD j [])
        (if bs.getD j false then s else zero_row 128) := by
  have hiflen : (if bs.getD j false then s else zero_row 128).length = 128 := by
    split
    · exact hs
    · simp [zero_row]
  simp only [transpose]
  rw [getD_map_range _ _ hj, getD_map_range _ _ hj]
  apply xor_block_ext
  · rw [length_xor_block, hiflen]
    simp
  · intro i hlen
    have hi : i < 128 := by simpa using hlen
    rw [getD_map_range _ _ hi,
      getD_xor_block (by simpa using hi) (by omega),
      getD_map_range _ _ hi,
      qs_entry prg s ks bs hs hks hi hj]
    cases hb : bs.getD j false
    · rw [if_neg (by simp [hb]), getD_zero_row]
      simp
    · rw [if_pos (by simp [hb])]
      simp

theorem recvOut_getD {h : AesHash} {tt : List (List Bool)} {bs : List Bool}
    {ys : List (Blk × Blk)} {j : ℕ} (hj : j < bs.length) :
    (recvOut h tt bs ys).getD j [] =
      xor_block
        (if bs.getD j false then (ys.getD j ([], [])).2
         else (ys.getD j ([], [])).1)
        (h.cr_hash j (tt.getD j [])) := by
  rw [recvOut, getD_map_range _ _ hj]

theorem sendYs_getD {h : AesHash} {qt : List (List Bool)} {s : List Bool}
    {inputs : List (Blk × Blk)} {j : ℕ} (hj : j < inputs.length) :
    (sendYs h qt s inputs).getD j ([], []) =
      (xor_block (h.cr_hash j (qt.getD j [])) ((inputs.getD j ([], [])).1),
       xor_block (h.cr_hash j (xor_block (qt.getD j []) s))
         ((inputs.getD j ([], [])).2)) := by
  rw [sendYs, getD_map_range _ _ hj]

theorem transpose_row_length {mat : List (List Bool)} {nrows ncols j : ℕ}
    (hj : j < ncols) :
    ((transpose mat nrows ncols).getD j []).length = nrows := by
  rw [transpose, getD_map_range _ _ hj]
  simp

def prg0 : Blk → ℕ → Bool := fun _ _ => false

def h0 : AesHash := ⟨fun _ => zero_row 128⟩

def s0 : List Bool := List.replicate 128 false

def ks0 : List (Blk × Blk) := List.replicate 128 (zero_row 128, zero_row 128)

def bs136 : List Bool := List.replicate 136 true

def in136 : List (Blk × Blk) :=
  List.replicate 136 (zero_row 128, List.replicate 128 true)

/-- C2: column invariant of the row expansion.  When `AlszOT::send` and
`AlszOT::receive` take the extension path (`m > 128`, with `m % 8 = 0` so
send proceeds) over the same stream with a correct base OT, then after the
128 row expansions and after both sides transpose, every column
`j ∈ [0, m)` satisfies `Q[·,j] = T[·,j] ⊕ (r_j · s)`: column `j` of the
sender's matrix equals column `j` of the receiver's matrix XORed with the
sender's 128-bit choice vector `s` exactly when the receiver's `j`-th
choice bit `r_j` is set. -/
theorem alsz_column_invariant (prg : Blk → ℕ → Bool) (s : List Bool)
    (ks : List (Blk × Blk)) (bs : List Bool) (j : ℕ)
    (hs : s.length = 128) (hks : ks.length = 128)
    (_hm : 128 < bs.length) (_h8 : bs.length % 8 = 0) (hj : j < bs.length) :
    (transpose (qsRows prg s (idealBaseOT ks s) (gRows prg ks bs bs.length)
        bs.length) 128 bs.length).getD j [] =
      xor_block
        ((transpose (tsRows prg ks bs.length) 128 bs.length).getD j [])
        (if bs.getD j false then s else zero_row 128) :=
  column_invariant_aux prg s ks bs hs hks hj

theorem alsz_column_invariant_witness :
    128 < bs136.length ∧ bs136.length % 8 = 0 ∧
      (transpose (qsRows prg0 s0 (idealBaseOT ks0 s0)
          (gRows prg0 ks0 bs136 bs136.length) bs136.length) 128
          bs136.length).getD 0 [] =
        xor_block
          ((transpose (tsRows prg0 ks0 bs136.length) 128
              bs136.length).getD 0 [])
          (if bs136.getD 0 false then s0 else zero_row 128) :=
  ⟨by decide, by decide,
    alsz_column_invariant prg0 s0 ks0 bs136 0 (by decide) (by decide)
      (by decide) (by decide) (by decide)⟩

/-- C4: for every input slice whose length `m` is not a multiple of 8,
`AlszOT::send` returns the `InvalidInput` error before performing any read
or write on the stream (and before the base-OT call): the event list of
the call is empty. -/
theorem alsz_send_rejects (prg : Blk → ℕ → Bool) (h : AesHash)
    (s : List Bool) (kch : List Blk) (gs : List (List Bool))
    (inputs : List (Blk × Blk)) (h8 : inputs.length % 8 ≠ 0) :
    alszSend prg h s kch gs inputs = ([], .error .invalidInput) := by
  simp [alszSend, h8]

def in3 : List (Blk × Blk) := List.replicate 3 (zero_row 128, zero_row 128)

theorem alsz_send_rejects_witness :
    in3.length % 8 ≠ 0 ∧
      alszSend prg0 h0 s0 [] [] in3 = ([], .error .invalidInput) :=
  ⟨by decide, alsz_send_rejects prg0 h0 s0 [] [] in3 (by decide)⟩

/-- C1 (amended): OTE correctness for every `m` that is a positive multiple
of 8 (in particular `m ∈ {8, 16, 128, 4096}`; `m = 129` is rejected by
`send` since 129 is not divisible by 8).  When `AlszOT::send` is run with
`m` message pairs and `AlszOT::receive` with the `m` choice bits `b_j` over
the same connected stream pair, on top of a correct base OT, then the
protocol succeeds and for every `0 ≤ j < m` the `j`-th block returned by
`receive` equals `m_{b_j}`, the message selected by the receiver's choice
bit. -/
theorem alsz_ote_correct (prg : Blk → ℕ → Bool) (h : AesHash)
    (baseOT : List (Blk × Blk) → List Bool → List Blk)
    (s : List Bool) (ks : List (Blk × Blk)) (inputs : List (Blk × Blk))
    (bs : List Bool)
    (hbase : baseOT = idealBaseOT)
    (haes : ∀ x, (h.aes x).length = 128)
    (hs : s.length = 128) (hks : ks.length = 128)
    (hlen : inputs.length = bs.length) (h8 : bs.length % 8 = 0)
    (hmsg : ∀ p ∈ inputs, p.1.length = 128 ∧ p.2.length = 128) :
    ∃ out, alszProtocol prg h baseOT s ks inputs bs = .ok out ∧
      out.length = bs.length ∧
      ∀ j, j < bs.length →
        out.getD j [] =
          if bs.getD j false then (inputs.getD j ([], [])).2
          else (inputs.getD j ([], [])).1 := by
  subst hbase
  rcases le_or_lt bs.length 128 with hsm | hlg
  · have hsend : (alszSend prg h s (idealBaseOT ks s)
        (gRows prg ks bs bs.length) inputs).2 = .ok .base := by
      have h1 : ¬ inputs.length % 8 ≠ 0 := by rw [hlen]; omega
      have h2 : inputs.length ≤ 128 := by omega
      simp [alszSend, h1, h2]
    have hrecv : (alszReceive prg h bs ks []).2 = .base := by
      simp [alszReceive, hsm]
    refine ⟨idealBaseOT inputs bs, ?_, ?_, ?_⟩
    · simp only [alszProtocol, hsend, hrecv]
    · simp [idealBaseOT, hlen]
    · intro j hj
      have hj1 : j < inputs.length := by omega
      have hz : j < (idealBaseOT inputs bs).length := by
        simp only [idealBaseOT, List.length_zipWith]; omega
      rw [List.getD_eq_getElem _ _ hz, List.getD_eq_getElem _ _ hj1,
        List.getD_eq_getElem _ _ hj]
      simp [idealBaseOT]
  · have hys : (alszSend prg h s (idealBaseOT ks s)
        (gRows prg ks bs bs.length) inputs).2 =
        .ok (.ext (sendYs h
          (transpose (qsRows prg s (idealBaseOT ks s)
            (gRows prg ks bs bs.length) inputs.length) 128 inputs.length)
          s inputs)) := by
      have h1 : ¬ inputs.length % 8 ≠ 0 := by rw [hlen]; omega
      have h2 : ¬ inputs.length ≤ 128 := by omega
      simp [alszSend, h1, h2]
    rw [hlen] at hys
    have hrecv : (alszReceive prg h bs ks
        (sendYs h (transpose (qsRows prg s (idealBaseOT ks s)
          (gRows prg ks bs bs.length) bs.length) 128 bs.length)
          s inputs)).2 =
        .ext (recvOut h (transpose (tsRows prg ks bs.length) 128 bs.length)
          bs (sendYs h (transpose (qsRows prg s (idealBaseOT ks s)
            (gRows prg ks bs bs.length) bs.length) 128 bs.length)
            s inputs)) := by
      have h2 : ¬ bs.length ≤ 128 := by omega
      simp [alszReceive, h2]
    refine ⟨recvOut h (transpose (tsRows prg ks bs.length) 128 bs.length)
      bs (sendYs h (transpose (qsRows prg s (idealBaseOT ks s)
        (gRows prg ks bs bs.length) bs.length) 128 bs.length) s inputs),
      ?_, ?_, ?_⟩
    · simp only [alszProtocol, hys, hrecv]
    · simp [recvOut]
    · intro j hj
      have hj1 : j < inputs.length := by omega
      have hmem : inputs.getD j ([], []) ∈ inputs := by
        rw [List.getD_eq_getElem _ _ hj1]
        exact List.getElem_mem hj1
      have hm0 : (inputs.getD j ([], [])).1.length = 128 := (hmsg _ hmem).1
      have hm1 : (inputs.getD j ([], [])).2.length = 128 := (hmsg _ hmem).2
      have hTlen : ((transpose (tsRows prg ks bs.length) 128
          bs.length).getD j []).length = 128 := transpose_row_length hj
      have hcrT : (h.cr_hash j ((transpose (tsRows prg ks bs.length) 128
          bs.length).getD j [])).length = 128 := by
        rw [AesHash.cr_hash, length_xor_block, hTlen, haes]
        exact Nat.min_self 128
      have hQ := column_invariant_aux prg s ks bs hs hks hj
      rw [recvOut_getD hj, sendYs_getD hj1, hQ]
      cases hb : bs.getD j false
      · rw [if_neg (by simp), if_neg (by simp [hb])]
        have hz : xor_block ((transpose (tsRows prg ks bs.length) 128
            bs.length).getD j []) (zero_row 128) =
            (transpose (tsRows prg ks bs.length) 128 bs.length).getD j [] := by
          have := xor_block_zero_right ((transpose (tsRows prg ks bs.length)
            128 bs.length).getD j [])
          rwa [hTlen] at this
        rw [hz]
        exact xor_block_xor_cancel _ _ (by rw [hm0, hcrT])
      · rw [if_pos (by simp), if_pos (by simp [hb])]
        have hc : xor_block (xor_block ((transpose (tsRows prg ks bs.length)
            128 bs.length).getD j []) s) s =
            (transpose (tsRows prg ks bs.length) 128 bs.length).getD j [] :=
          xor_block_cancel_right _ _ (by rw [hs, hTlen])
        rw [hc]
        exact xor_block_xor_cancel _ _ (by rw [hm1, hcrT])

theorem alsz_ote_correct_witness :
    in136.length = bs136.length ∧ bs136.length % 8 = 0 ∧
      ∃ out, alszProtocol prg0 h0 idealBaseOT s0 ks0 in136 bs136 = .ok out ∧
        out.length = bs136.length ∧
        ∀ j, j < bs136.length →
          out.getD j [] =
            if bs136.getD j false then (in136.getD j ([], [])).2
            else (in136.getD j ([], [])).1 :=
  ⟨by decide, by decide,
    alsz_ote_correct prg0 h0 idealBaseOT s0 ks0 in136 bs136 rfl
      (fun _ => rfl) (by decide) (by decide) (by decide) (by decide)
      (by
        intro p hp
        rw [List.eq_of_mem_replicate hp]
        exact ⟨by decide, by decide⟩)⟩

def in129 : List (Blk × Blk) :=
  List.replicate 129 (zero_row 128, List.replicate 128 true)

def bs129 : List Bool := List.replicate 129 true

/-- C1 counterexample: at `m = 129` — one of the sizes the claim names —
the joint run does not return the chosen messages: `send` rejects the
input slice (129 is not divisible by 8) and the protocol yields an error
instead of the 129 chosen blocks. -/
theorem alsz_ote_129_cx :
    alszProtocol prg0 h0 idealBaseOT s0 ks0 in129 bs129 =
        .error .invalidInput ∧
      (Except.error OtErr.invalidInput : Except OtErr (List Blk)) ≠
        .ok (List.replicate 129 (List.replicate 128 true)) :=
  ⟨rfl, fun hcon => Except.noConfusion hcon⟩

/-- C6 (amended): small-m fallback.  For every `m ≤ 128`, with no
divisibility condition, `AlszOT::receive` delegates directly to the base
OT's receive (its only stream event is the base-OT interaction, regardless
of what arrives on the stream); and when additionally `m` is a multiple of
8, `AlszOT::send` delegates directly to the base OT's send on the same
inputs, so the joint outputs are identical to running the base OT itself
on the same inputs, with no extension-protocol I/O performed.  Only
`m ≤ 128` is assumed globally; the divisibility condition guards the two
send-side conjuncts alone. -/
theorem alsz_small_m (prg : Blk → ℕ → Bool) (h : AesHash)
    (baseOT : List (Blk × Blk) → List Bool → List Blk)
    (s : List Bool) (ks : List (Blk × Blk)) (inputs : List (Blk × Blk))
    (bs : List Bool) (ys : List (Blk × Blk)) (hm : bs.length ≤ 128) :
    alszReceive prg h bs ks ys = ([.baseOt], .base) ∧
      (inputs.length = bs.length → inputs.length % 8 = 0 →
        alszSend prg h s (baseOT ks s) (gRows prg ks bs bs.length) inputs
            = ([.baseOt], .ok .base) ∧
          alszProtocol prg h baseOT s ks inputs bs =
            .ok (baseOT inputs bs)) := by
  constructor
  · simp [alszReceive, hm]
  · intro hlen h8
    have h1 : ¬ inputs.length % 8 ≠ 0 := by omega
    have h2 : inputs.length ≤ 128 := by omega
    have hsend : alszSend prg h s (baseOT ks s)
        (gRows prg ks bs bs.length) inputs = ([.baseOt], .ok .base) := by
      simp [alszSend, h1, h2]
    have hrecv : alszReceive prg h bs ks [] = ([.baseOt], .base) := by
      simp [alszReceive, hm]
    refine ⟨hsend, ?_⟩
    simp only [alszProtocol, hsend, hrecv]

def in8 : List (Blk × Blk) :=
  List.replicate 8 (zero_row 128, List.replicate 128 true)

def bs8 : List Bool := List.replicate 8 true

def in1 : List (Blk × Blk) := [(zero_row 128, List.replicate 128 true)]

theorem alsz_small_m_witness :
    (bs8.length ≤ 128 ∧ in8.length = bs8.length ∧ in8.length % 8 = 0 ∧
        alszProtocol prg0 h0 idealBaseOT s0 ks0 in8 bs8 =
          .ok (idealBaseOT in8 bs8)) ∧
      (([true] : List Bool).length ≤ 128 ∧ in1.length % 8 ≠ 0 ∧
        alszReceive prg0 h0 [true] ks0 [] = ([OtEv.baseOt], RecvRes.base)) :=
  ⟨⟨by decide, by decide, by decide,
      ((alsz_small_m prg0 h0 idealBaseOT s0 ks0 in8 bs8 [] (by decide)).2
        rfl (by decide)).2⟩,
    ⟨by decide, by decide,
      (alsz_small_m prg0 h0 idealBaseOT s0 ks0 in1 [true] [] (by decide)).1⟩⟩

/-- C6 counterexample: at `m = 1 ≤ 128` the sender does not delegate to the
base OT — it rejects the inputs before the base-OT call (empty event list)
— and the joint run errors, while the receiver does delegate at the same
`m = 1` and the base OT itself succeeds on the same inputs, so the original
claim's conjunction fails. -/
theorem alsz_small_m_cx :
    alszSend prg0 h0 s0 (idealBaseOT ks0 s0) (gRows prg0 ks0 [true] 1) in1
        = ([], .error .invalidInput) ∧
      alszReceive prg0 h0 [true] ks0 [] = ([OtEv.baseOt], RecvRes.base) ∧
      idealBaseOT in1 [true] = [List.replicate 128 true] ∧
      alszProtocol prg0 h0 idealBaseOT s0 ks0 in1 [true] =
        .error .invalidInput :=
  ⟨rfl, rfl, rfl, rfl⟩

/-- C7: for every tweak `i` and every block `x`,
`cr_hash(i, x) = AES_K(x) ⊕ x` where `K` is the key the `AesHash` was
constructed with, and the tweak is ignored:
`cr_hash(i, x) = cr_hash(i', x)` for all tweaks `i, i'`. -/
theorem cr_hash_spec (h : AesHash) (i i' : ℕ) (x : Blk) :
    h.cr_hash i x = xor_block (h.aes x) x ∧ h.cr_hash i x = h.cr_hash i' x :=
  ⟨xor_block_comm x (h.aes x), rfl⟩

theorem ccr_hash_eq_cr_hash_sigmaCode (h : AesHash) (i : ℕ) (x : Blk) :
    h.ccr_hash i x = h.cr_hash i (sigmaCode x) := rfl

def e68 : Blk := (List.range 128).map (fun i => decide (i = 68))

/-- C3 fails on the code: at the block `e68` whose only set bit is bit 68
(byte 8 = `0x10`), the block the code hashes differs from the σ the claim
states — the code swaps the halves and keeps only the low nibble of each
high byte (`_mm_set1_pi8(0xF)`) — so with the cipher modelled as the
constant-zero function (under which `cr_hash` is the identity),
`ccr_hash(0, e68) ≠ cr_hash(0, σ(e68))`. -/
theorem ccr_hash_diverges :
    sigmaCode e68 ≠ sigmaSpec e68 ∧
      AesHash.ccr_hash h0 0 e68 ≠ AesHash.cr_hash h0 0 (sigmaSpec e68) := by
  exact ⟨by decide, by decide⟩

/-- C9: when the garbler callback receives an
`UnencodedGarblerInput{zero, delta}` message, it pops the next garbler
input value `x` from the front of the garbler's input queue and emits a
`GarblerInput` message whose wire is `zero.plus(delta.cmul(x))`, written to
the stream after the sync-index byte, which is `0xFF = 255` when no index
is given. -/
theorem garbler_input_message {W : Type} (ops : WireOps W)
    (toBytes : GbMessage W → List ℕ) (idx : Option ℕ) (zero delta : W)
    (x : ℕ) (rest : List ℕ) :
    garblerCallback ops toBytes (x :: rest) idx
        (.unencodedGarblerInput zero delta) =
      .ok (syncByte idx ++
        toBytes (.garblerInput (ops.plus zero (ops.cmul delta x))), rest) ∧
      syncByte none = [255] :=
  ⟨rfl, rfl⟩

/-- C5 (amended): when the garbler's input queue is exhausted as an
`UnencodedGarblerInput` message arrives, or the evaluator's input queue is
exhausted in `evaluator_inputs`, the code panics — `unwrap` on the
exhausted iterator, `Vec::remove(0)` on the empty vector — aborting the
process instead of raising an `Input` error that propagates to the
top-level call. -/
theorem input_exhaustion_panics {W : Type} (ops : WireOps W)
    (toBytes : GbMessage W → List ℕ) (len : ℕ → ℕ)
    (otR : List Bool → List Blk) (idx : Option ℕ) (zero delta : W)
    (q : ℕ) (qs : List ℕ) :
    garblerCallback ops toBytes [] idx (.unencodedGarblerInput zero delta)
        = .error .panicked ∧
      evaluator_inputs ops len otR (q :: qs) [] = .error .panicked :=
  ⟨rfl, rfl⟩

def ops0 : WireOps ℕ := ⟨fun _ => 0, Nat.add, Nat.mul, fun _ _ => 0⟩

/-- C5 counterexample: at concrete empty input queues, both the garbler
callback (on an `UnencodedGarblerInput`) and `evaluator_inputs` end in the
panic outcome, which is not the `Input` error the claim requires. -/
theorem input_exhaustion_cx :
    garblerCallback ops0 (fun _ => []) [] none
        (.unencodedGarblerInput 0 0) = .error .panicked ∧
      evaluator_inputs ops0 (fun q => Nat.clog 2 q) (fun _ => []) [2] []
        = .error .panicked ∧
      TpErr.panicked ≠ TpErr.inputErr :=
  ⟨rfl, rfl, by decide⟩

theorem popBits_enough (len : ℕ → ℕ) (qs : List ℕ) :
    ∀ st : List ℕ, qs.length ≤ st.length →
      popBits len qs st =
        some (((qs.zip st).map (fun p => bitsOf len p.1 p.2)).flatten,
          st.drop qs.length) := by
  induction qs with
  | nil => intro st _; simp [popBits]
  | cons q qs ih =>
    intro st h
    cases st with
    | nil => simp at h
    | cons v st =>
      rw [popBits, ih st (by simpa using h)]
      simp

/-- C8: `evaluator_inputs(qs)` pops one value per modulus from the front of
the evaluator's input queue (consuming exactly the first `qs.length`
values), decomposes each popped value into `len = ⌈log2 q⌉` bits LSB-first,
concatenates all the bits across the batch into a single OT-receive call,
and then for each `q` combines the next `len` returned blocks — lifted via
`from_block(q)` — into the wire `Σ_i wire_i · 2^i` (the source's
`combine`). -/
theorem evaluator_inputs_spec {W : Type} (ops : WireOps W) (len : ℕ → ℕ)
    (otR : List Bool → List Blk) (qs st : List ℕ)
    (_hlen : ∀ q, len q = Nat.clog 2 q) (henough : qs.length ≤ st.length) :
    evaluator_inputs ops len otR qs st =
      .ok (chunkCombine ops len qs
        (otR (((qs.zip st).map (fun p => bitsOf len p.1 p.2)).flatten)),
        st.drop qs.length) := by
  rw [evaluator_inputs, popBits_enough len qs st henough]

def otR0 : List Bool → List Blk := fun bs => bs.map (fun b => [b])

theorem evaluator_inputs_spec_witness :
    ([2, 3] : List ℕ).length ≤ ([1, 2, 3] : List ℕ).length ∧
      evaluator_inputs ops0 (fun q => Nat.clog 2 q) otR0 [2, 3] [1, 2, 3] =
        .ok (chunkCombine ops0 (fun q => Nat.clog 2 q) [2, 3]
          (otR0 (((([2, 3] : List ℕ).zip ([1, 2, 3] : List ℕ)).map
            (fun p => bitsOf (fun q => Nat.clog 2 q) p.1 p.2)).flatten)),
          ([1, 2, 3] : List ℕ).drop ([2, 3] : List ℕ).length) :=
  ⟨by decide,
    evaluator_inputs_spec ops0 (fun q => Nat.clog 2 q) otR0 [2, 3] [1, 2, 3]
      (fun _ => rfl) (by decide)⟩

/-- C10: for every modulus `q` and every evaluator state,
`evaluator_input(q)` returns exactly the wire that is the sole element of
`evaluator_inputs(&[q])` on the same state, consuming one value from the
front of the input queue; the two entry points also agree (by panicking)
on the empty queue. -/
theorem evaluator_input_single {W : Type} (ops : WireOps W) (len : ℕ → ℕ)
    (otR : List Bool → List Blk) (q v : ℕ) (st : List ℕ) :
    evaluator_inputs ops len otR [q] (v :: st) =
        .ok ([combine ops ((otR (bitsOf len q v)).take (len q)) q], st) ∧
      evaluator_input ops len otR q (v :: st) =
        .ok (combine ops ((otR (bitsOf len q v)).take (len q)) q, st) ∧
      evaluator_input ops len otR q [] = .error .panicked ∧
      evaluator_inputs ops len otR [q] [] = .error .panicked := by
  have hpop : popBits len [q] (v :: st) = some (bitsOf len q v, st) := by
    simp [popBits]
  have h1 : evaluator_inputs ops len otR [q] (v :: st) =
      .ok ([combine ops ((otR (bitsOf len q v)).take (len q)) q], st) := by
    rw [evaluator_inputs, hpop]
    rfl
  refine ⟨h1, ?_, rfl, rfl⟩
  rw [evaluator_input, h1]
